import Mathlib

/-!
A shallow embedding of the symbolic witness-generation inference engine from
`executor/src/witgen/jit/witgen_inference.rs` (the `WitgenInference` component),
together with models of its collaborators (`Cell`, `RangeConstraint`,
`SymbolicExpression`, `AffineSymbolicExpression` and its `solve`), and proofs of
properties of the engine.

The field of values is modelled as `ZMod p` for an arbitrary modulus `p`.
-/

set_option maxHeartbeats 1000000

/-- `PolynomialType` from the analyzed-AST collaborator: the kind of a column. -/
inductive PolynomialType where
  | Committed
  | Constant
  | Intermediate
deriving DecidableEq, Repr

/-- `AlgebraicReference`: a reference to a column, with its `next`-row flag.
The fields `name`, `id` (standing for `poly_id.id`) and `ptype` (standing for
`poly_id.ptype`) identify the column. -/
structure AlgebraicReference where
  name : String
  id : Nat
  ptype : PolynomialType
  next : Bool
deriving DecidableEq, Repr

/-- `AlgebraicReference::is_fixed`: the reference points to a fixed column. -/
def AlgebraicReference.is_fixed (r : AlgebraicReference) : Bool :=
  r.ptype = PolynomialType.Constant

/-- `Cell` from `cell.rs` (not among the sources): identity of one trace entry,
column plus concrete row offset; equality is by value. -/
structure Cell where
  column_name : String
  id : Nat
  row_offset : Int
deriving DecidableEq, Repr

/-- Modelled from the spec: `Cell::from_reference` of `cell.rs` is not among the
sources. §4.4: "build a Cell from (column, row_offset adjusted by the
reference's own relative offset flag)". -/
def Cell.from_reference (r : AlgebraicReference) (offset : Int) : Cell :=
  { column_name := r.name, id := r.id,
    row_offset := offset + (if r.next then 1 else 0) }

/-- Modelled from the spec: `RangeConstraint` of `range_constraints.rs` is not
among the sources. §4.1 describes it abstractly as the set of field values a
cell may still take; we represent that set by the list of its elements.
`conjunction` is intersection and `try_to_single_value` detects a single
remaining candidate. -/
structure RangeConstraint (p : ℕ) where
  allowed : List (ZMod p)
deriving DecidableEq

/-- Modelled from the spec (§4.1): conjunction is the intersection of the two
value sets. -/
def RangeConstraint.conjunction {p : ℕ} (a b : RangeConstraint p) :
    RangeConstraint p :=
  ⟨a.allowed.filter (fun x => x ∈ b.allowed)⟩

/-- Modelled from the spec (§4.1): detection of a single remaining candidate
value. -/
def RangeConstraint.try_to_single_value {p : ℕ} (a : RangeConstraint p) :
    Option (ZMod p) :=
  match a.allowed.dedup with
  | [v] => some v
  | _ => none

/-- Modelled from the spec: `SymbolicExpression` of the collaborating module is
not among the sources. A known value is either a concrete field constant, a
known-but-symbolic cell (§4.4), or an arithmetic combination of known values. -/
inductive SymbolicExpression (p : ℕ) where
  | Concrete (v : ZMod p)
  | Symbol (c : Cell)
  | Add (a b : SymbolicExpression p)
  | Sub (a b : SymbolicExpression p)
  | Mul (a b : SymbolicExpression p)
  | Div (a b : SymbolicExpression p)
  | Neg (a : SymbolicExpression p)
deriving DecidableEq, Repr

namespace SymbolicExpression

/-- Modelled from the spec: a symbolic expression has a concrete numeric value
exactly when it is a concrete constant. -/
def try_to_number {p : ℕ} : SymbolicExpression p → Option (ZMod p)
  | Concrete v => some v
  | _ => none

/-- The value is known to be zero (a concrete zero). -/
def is_known_zero {p : ℕ} (e : SymbolicExpression p) : Bool :=
  e.try_to_number = some 0

/-- The value is known to be one (a concrete one). -/
def is_known_one {p : ℕ} (e : SymbolicExpression p) : Bool :=
  e.try_to_number = some 1

/-- Addition of known values; concrete constants are folded. -/
def add {p : ℕ} : SymbolicExpression p → SymbolicExpression p → SymbolicExpression p
  | Concrete a, Concrete b => Concrete (a + b)
  | a, b => Add a b

/-- Subtraction of known values; concrete constants are folded. -/
def sub {p : ℕ} : SymbolicExpression p → SymbolicExpression p → SymbolicExpression p
  | Concrete a, Concrete b => Concrete (a - b)
  | a, b => Sub a b

/-- Multiplication of known values; concrete constants are folded. -/
def mul {p : ℕ} : SymbolicExpression p → SymbolicExpression p → SymbolicExpression p
  | Concrete a, Concrete b => Concrete (a * b)
  | a, b => Mul a b

/-- The multiplicative inverse in `ZMod p`, realized as a search over the
domain so that it evaluates by kernel reduction; for a prime modulus it is the
field inverse. -/
def fieldInv {p : ℕ} (a : ZMod p) : ZMod p :=
  (((List.range p).map (fun k => (k : ZMod p))).find?
    (fun b => decide (a * b = 1))).getD 0

/-- Field division of known values; concrete constants are folded. -/
def div {p : ℕ} : SymbolicExpression p → SymbolicExpression p → SymbolicExpression p
  | Concrete a, Concrete b => Concrete (a * fieldInv b)
  | a, b => Div a b

/-- Negation of a known value; a concrete constant is folded. -/
def neg {p : ℕ} : SymbolicExpression p → SymbolicExpression p
  | Concrete a => Concrete (-a)
  | a => Neg a

/-- Modelled from the spec (§4.3): the trivial single-value range constraint of
an assigned value, when the value resolves to a concrete constant. -/
def range_constraint {p : ℕ} : SymbolicExpression p → Option (RangeConstraint p)
  | Concrete v => some ⟨[v]⟩
  | _ => none

/-- The cells referenced by a known value. -/
def symbols {p : ℕ} : SymbolicExpression p → List Cell
  | Concrete _ => []
  | Symbol c => [c]
  | Add a b => a.symbols ++ b.symbols
  | Sub a b => a.symbols ++ b.symbols
  | Mul a b => a.symbols ++ b.symbols
  | Div a b => a.symbols ++ b.symbols
  | Neg a => a.symbols

end SymbolicExpression

/-- Modelled from the spec: `AffineSymbolicExpression` of
`affine_symbolic_expression.rs` is not among the sources. §2/§4.2: a known part
(`offset`) plus a linear combination of cell-indexed unknowns with known
coefficients. The per-unknown range constraints of the source feed only the
optional mask/shift enhancement of §9 ("not a required correctness property")
and are not modelled. -/
structure AffineSymbolicExpression (p : ℕ) where
  coefficients : List (Cell × SymbolicExpression p)
  offset : SymbolicExpression p
deriving DecidableEq, Repr

namespace AffineSymbolicExpression

/-- An affine expression consisting of a known value only. -/
def of_symbolic {p : ℕ} (e : SymbolicExpression p) : AffineSymbolicExpression p :=
  ⟨[], e⟩

/-- `From<T>`: an affine expression consisting of a concrete constant. -/
def of_number {p : ℕ} (v : ZMod p) : AffineSymbolicExpression p :=
  of_symbolic (SymbolicExpression.Concrete v)

/-- `from_known_symbol`: a known cell represented as a known-but-symbolic value
(§4.4). -/
def from_known_symbol {p : ℕ} (c : Cell) : AffineSymbolicExpression p :=
  of_symbolic (SymbolicExpression.Symbol c)

/-- `from_unknown_variable`: a genuine unknown term with coefficient one. -/
def from_unknown_variable {p : ℕ} (c : Cell) : AffineSymbolicExpression p :=
  ⟨[(c, SymbolicExpression.Concrete 1)], SymbolicExpression.Concrete 0⟩

/-- Modelled from the spec (§4.2): the fully-known view exists iff no unknown
terms remain. -/
def try_to_known {p : ℕ} (e : AffineSymbolicExpression p) :
    Option (SymbolicExpression p) :=
  if e.coefficients.isEmpty then some e.offset else none

/-- Modelled from the spec (§4.2): the lone unknown cell, iff exactly one
distinct unknown term exists. -/
def single_unknown_variable {p : ℕ} (e : AffineSymbolicExpression p) :
    Option Cell :=
  match (e.coefficients.map Prod.fst).dedup with
  | [c] => some c
  | _ => none

/-- The combined coefficient of cell `c` in a coefficient list (sum of all
entries for `c`). -/
def coeffSum {p : ℕ} (l : List (Cell × SymbolicExpression p)) (c : Cell) :
    SymbolicExpression p :=
  ((l.filter (fun t => t.1 = c)).map Prod.snd).foldr SymbolicExpression.add
    (SymbolicExpression.Concrete 0)

/-- Termwise addition of coefficient lists; terms whose combined coefficient is
known to be zero are dropped. -/
def addCoefficients {p : ℕ} (a b : List (Cell × SymbolicExpression p)) :
    List (Cell × SymbolicExpression p) :=
  (((a ++ b).map Prod.fst).dedup.map (fun c => (c, coeffSum (a ++ b) c))).filter
    (fun t => ¬ t.2.is_known_zero)

/-- Modelled from the spec (§4.2): affine addition, termwise. -/
def add {p : ℕ} (a b : AffineSymbolicExpression p) : AffineSymbolicExpression p :=
  ⟨addCoefficients a.coefficients b.coefficients,
   SymbolicExpression.add a.offset b.offset⟩

/-- Modelled from the spec (§4.2): affine negation, termwise. -/
def neg {p : ℕ} (a : AffineSymbolicExpression p) : AffineSymbolicExpression p :=
  ⟨a.coefficients.map (fun t => (t.1, SymbolicExpression.neg t.2)),
   SymbolicExpression.neg a.offset⟩

/-- Modelled from the spec (§4.2): affine subtraction. -/
def sub {p : ℕ} (a b : AffineSymbolicExpression p) : AffineSymbolicExpression p :=
  add a b.neg

/-- Scaling by a known value: distribute the known scalar across all terms. -/
def scale {p : ℕ} (k : SymbolicExpression p) (a : AffineSymbolicExpression p) :
    AffineSymbolicExpression p :=
  ⟨a.coefficients.map (fun t => (t.1, SymbolicExpression.mul k t.2)),
   SymbolicExpression.mul k a.offset⟩

/-- Modelled from the spec (§4.2): `try_mul` succeeds only if at least one
operand is fully known and distributes that known scalar across the other. -/
def try_mul {p : ℕ} (a b : AffineSymbolicExpression p) :
    Option (AffineSymbolicExpression p) :=
  match a.try_to_known with
  | some ka => some (scale ka b)
  | none =>
    match b.try_to_known with
    | some kb => some (scale kb a)
    | none => none

/-- The cells referenced as known symbols in an affine expression (inside the
offset or inside the coefficients). The unknown cells themselves are the
`coefficients` keys, not part of this list. -/
def known_symbols {p : ℕ} (e : AffineSymbolicExpression p) : List Cell :=
  e.offset.symbols ++ (e.coefficients.map (fun t => t.2.symbols)).flatten

/-- The unknown cells of an affine expression. -/
def unknown_cells {p : ℕ} (e : AffineSymbolicExpression p) : List Cell :=
  e.coefficients.map Prod.fst

end AffineSymbolicExpression

/-- `Assertion` from the collaborating effects module: a runtime check that two
known quantities are (or are not) equal. -/
structure Assertion (p : ℕ) where
  lhs : SymbolicExpression p
  rhs : SymbolicExpression p
  expected_equal : Bool
deriving DecidableEq, Repr

/-- `MachineCallArgument`: one positional argument of a machine call, tagged
`Known` (a known value) or `Unknown` (a single-variable expression). -/
inductive MachineCallArgument (p : ℕ) where
  | Known (v : SymbolicExpression p)
  | Unknown (e : AffineSymbolicExpression p)
deriving DecidableEq, Repr

/-- `Effect`: one unit of generated runtime behaviour. -/
inductive Effect (p : ℕ) where
  | Assignment (cell : Cell) (value : SymbolicExpression p)
  | RangeConstraint (cell : Cell) (rc : RangeConstraint p)
  | Assertion (a : Assertion p)
  | MachineCall (id : Nat) (args : List (MachineCallArgument p))
deriving DecidableEq

/-- `ProcessResult`: the effects of processing one identity on one row, plus
whether the pair is fully processed. -/
structure ProcessResult (p : ℕ) where
  effects : List (Effect p)
  complete : Bool
deriving DecidableEq

/-- `ProcessResult::empty`: no effects, not complete. -/
def ProcessResult.empty {p : ℕ} : ProcessResult p := ⟨[], false⟩

/-- Modelled from the spec: `AffineSymbolicExpression::solve` of
`affine_symbolic_expression.rs` is not among the sources. Following §4.2:
with zero unknown terms, a known-zero constant is success with no effects and a
constant not known to be zero emits an `Assertion` that it equals zero
(complete, no solve-time error, §7); with exactly one unknown term the negated
constant is divided by the coefficient and an `Assignment` is emitted
(complete); with more than one unknown term the result is empty and not
complete. The mask/shift-derived extra `RangeConstraint` effects are the
optional enhancement of §9 and are not modelled. -/
def AffineSymbolicExpression.solve {p : ℕ} (e : AffineSymbolicExpression p) :
    ProcessResult p :=
  match e.coefficients with
  | [] =>
    if e.offset.is_known_zero then ⟨[], true⟩
    else ⟨[Effect.Assertion ⟨e.offset, SymbolicExpression.Concrete 0, true⟩], true⟩
  | [(cell, coeff)] =>
    ⟨[Effect.Assignment cell
        (SymbolicExpression.div (SymbolicExpression.neg e.offset) coeff)], true⟩
  | _ => ⟨[], false⟩

/-- `AlgebraicBinaryOperator` from the analyzed AST. -/
inductive AlgebraicBinaryOperator where
  | Add
  | Sub
  | Mul
  | Pow
deriving DecidableEq, Repr

/-- `AlgebraicUnaryOperator` from the analyzed AST. -/
inductive AlgebraicUnaryOperator where
  | Minus
deriving DecidableEq, Repr

/-- `AlgebraicExpression` from the analyzed AST: the constraint-expression
tree. -/
inductive Expression (p : ℕ) where
  | Reference (r : AlgebraicReference)
  | PublicReference (s : String)
  | Challenge (id : Nat)
  | Number (n : ZMod p)
  | BinaryOperation (left : Expression p) (op : AlgebraicBinaryOperator)
      (right : Expression p)
  | UnaryOperation (op : AlgebraicUnaryOperator) (expr : Expression p)
deriving DecidableEq, Repr

/-- `SelectedExpressions`: one side of a lookup-family identity, a selector
together with the list of expressions. -/
structure SelectedExpressions (p : ℕ) where
  selector : Expression p
  expressions : List (Expression p)
deriving DecidableEq, Repr

/-- `Identity` from the analyzed AST (payloads not used by the engine are
elided). -/
inductive Identity (p : ℕ) where
  | Polynomial (id : Nat) (expression : Expression p)
  | Lookup (id : Nat) (left right : SelectedExpressions p)
  | Permutation (id : Nat) (left right : SelectedExpressions p)
  | PhantomPermutation (id : Nat) (left right : SelectedExpressions p)
  | PhantomLookup (id : Nat) (left right : SelectedExpressions p)
  | PhantomBusInteraction
  | Connect
deriving DecidableEq, Repr

/-- The state of `WitgenInference`. The fixed-value provider
(`fixed_evaluator`) and the global range-constraint source of `fixed_data`
(queried by column id: the source builds the query reference from `cell.id`
with `next: false`) are external collaborators, modelled as functions. -/
structure WitgenInference (p : ℕ) where
  fixed_evaluator : AlgebraicReference → Int → Option (ZMod p)
  global_range_constraints : Nat → Option (RangeConstraint p)
  derived_range_constraints : Cell → Option (RangeConstraint p)
  known_cells : Finset Cell
  code : List (Effect p)

namespace WitgenInference

/-- `WitgenInference::new`. -/
def new {p : ℕ} (fixed_evaluator : AlgebraicReference → Int → Option (ZMod p))
    (global_range_constraints : Nat → Option (RangeConstraint p))
    (known_cells : Finset Cell) : WitgenInference p :=
  { fixed_evaluator := fixed_evaluator
    global_range_constraints := global_range_constraints
    derived_range_constraints := fun _ => none
    known_cells := known_cells
    code := [] }

/-- `range_constraint`: the current best-known range constraint on a cell,
combining the global constraint with the locally derived one by conjunction. -/
def range_constraint {p : ℕ} (s : WitgenInference p) (cell : Cell) :
    Option (RangeConstraint p) :=
  match s.global_range_constraints cell.id, s.derived_range_constraints cell with
  | some gc, some rc => some (gc.conjunction rc)
  | some gc, none => some gc
  | none, some rc => some rc
  | none, none => none

/-- `evaluate`: recursively evaluate a constraint expression into affine
symbolic form at a row offset; `none` is a normal "cannot proceed" outcome. -/
def evaluate {p : ℕ} (s : WitgenInference p) (expr : Expression p) (offset : Int) :
    Option (AffineSymbolicExpression p) :=
  match expr with
  | Expression.Reference r =>
    if r.is_fixed then
      (s.fixed_evaluator r offset).map AffineSymbolicExpression.of_number
    else
      let cell := Cell.from_reference r offset
      let rc := s.range_constraint cell
      match rc.bind RangeConstraint.try_to_single_value with
      | some val => some (AffineSymbolicExpression.of_number val)
      | none =>
        if cell ∈ s.known_cells then
          some (AffineSymbolicExpression.from_known_symbol cell)
        else
          some (AffineSymbolicExpression.from_unknown_variable cell)
  | Expression.PublicReference _ => none
  | Expression.Challenge _ => none
  | Expression.Number n => some (AffineSymbolicExpression.of_number n)
  | Expression.BinaryOperation l op r => do
    let left ← evaluate s l offset
    let right ← evaluate s r offset
    match op with
    | AlgebraicBinaryOperator.Add => some (left.add right)
    | AlgebraicBinaryOperator.Sub => some (left.sub right)
    | AlgebraicBinaryOperator.Mul => left.try_mul right
    | AlgebraicBinaryOperator.Pow => do
      let lk ← left.try_to_known
      let ln ← lk.try_to_number
      let rk ← right.try_to_known
      let rn ← rk.try_to_number
      some (AffineSymbolicExpression.of_number (ln ^ rn.val))
  | Expression.UnaryOperation op e => do
    let v ← evaluate s e offset
    match op with
    | AlgebraicUnaryOperator.Minus => some v.neg

/-- `evaluate_binary_operation` of the source, as a standalone function. -/
def evaluate_binary_operation {p : ℕ} (s : WitgenInference p) (l : Expression p)
    (op : AlgebraicBinaryOperator) (r : Expression p) (offset : Int) :
    Option (AffineSymbolicExpression p) :=
  evaluate s (Expression.BinaryOperation l op r) offset

/-- `evaluate_unary_operation` of the source, as a standalone function. -/
def evaluate_unary_operation {p : ℕ} (s : WitgenInference p)
    (op : AlgebraicUnaryOperator) (e : Expression p) (offset : Int) :
    Option (AffineSymbolicExpression p) :=
  evaluate s (Expression.UnaryOperation op e) offset

/-- `process_polynomial_identity`: evaluate the expression at the row; on
success solve it, otherwise return the empty result. (The source unwraps the
result of `solve`; the modelled `solve` is total, per §4.2/§7.) -/
def process_polynomial_identity {p : ℕ} (s : WitgenInference p)
    (expression : Expression p) (offset : Int) : ProcessResult p :=
  match evaluate s expression offset with
  | some r => r.solve
  | none => ProcessResult.empty

/-- The check on right-hand expressions of a lookup: a fixed-column reference
or a number. -/
def rhs_fixed_or_number {p : ℕ} : Expression p → Bool
  | Expression.Reference r => r.is_fixed
  | Expression.Number _ => true
  | _ => false

/-- Evaluation of a list of expressions, failing when any element fails
(`collect::<Option<Vec<_>>>`). -/
def evaluate_all {p : ℕ} (s : WitgenInference p) (es : List (Expression p))
    (offset : Int) : Option (List (AffineSymbolicExpression p)) :=
  match es with
  | [] => some []
  | e :: rest =>
    match evaluate s e offset, evaluate_all s rest offset with
    | some v, some vs => some (v :: vs)
    | _, _ => none

/-- Tag one evaluated left-hand argument of a machine call. -/
def tag_argument {p : ℕ} (e : AffineSymbolicExpression p) :
    MachineCallArgument p :=
  match e.try_to_known with
  | some val => MachineCallArgument.Known val
  | none => MachineCallArgument.Unknown e

/-- `process_lookup`: resolve a lookup-family identity when the right side is
all fixed columns or constants, the left selector is known to be one, the left
expressions all evaluate, and exactly one of them is unknown with a single
unknown variable. -/
def process_lookup {p : ℕ} (s : WitgenInference p) (lookup_id : Nat)
    (left right : SelectedExpressions p) (offset : Int) : ProcessResult p :=
  if right.expressions.all rhs_fixed_or_number then
    if ((evaluate s left.selector offset).bind
        (fun sl => sl.try_to_known.map SymbolicExpression.is_known_one))
        = some true then
      match evaluate_all s left.expressions offset with
      | some lhs =>
        let unknown := lhs.filter (fun e => e.try_to_known.isNone)
        if unknown.length = 1 ∧
            ((unknown.head?.bind
              AffineSymbolicExpression.single_unknown_variable).isSome) then
          ⟨[Effect.MachineCall lookup_id (lhs.map tag_argument)], true⟩
        else ProcessResult.empty
      | none => ProcessResult.empty
    else ProcessResult.empty
  else ProcessResult.empty

/-- The constraint stored by `add_range_constraint`: the new constraint merged
by conjunction into the cell's current combined constraint, if any
(`map_or` over `range_constraint`). -/
def merged_rc {p : ℕ} (s : WitgenInference p) (cell : Cell)
    (rc : RangeConstraint p) : RangeConstraint p :=
  match s.range_constraint cell with
  | some existing_rc => existing_rc.conjunction rc
  | none => rc

/-- `add_range_constraint`: merge a new range constraint into the derived map
by conjunction with the current combined constraint; if the merged constraint
pins a single value and the cell is not yet known, promote the cell to known
and synthesize an `Assignment` effect. -/
def add_range_constraint {p : ℕ} (s : WitgenInference p) (cell : Cell)
    (rc : RangeConstraint p) : WitgenInference p :=
  let rc' := merged_rc s cell rc
  let s1 :=
    if cell ∉ s.known_cells then
      match rc'.try_to_single_value with
      | some v =>
        { s with known_cells := insert cell s.known_cells
                 code := s.code ++ [Effect.Assignment cell
                   (SymbolicExpression.Concrete v)] }
      | none => s
    else s
  { s1 with derived_range_constraints :=
      fun c => if c = cell then some rc' else s1.derived_range_constraints c }

/-- The cell supplied by an `Unknown` machine-call argument, if any. -/
def unknown_arg_cell {p : ℕ} : MachineCallArgument p → Option Cell
  | MachineCallArgument.Unknown expr => expr.single_unknown_variable
  | MachineCallArgument.Known _ => none

/-- The per-argument step of ingesting a `MachineCall` effect: mark the cell of
an `Unknown` argument as known. The source unwraps `single_unknown_variable`
there (a panic would be an internal invariant violation, §7, unreachable for
effects produced by this component); the model skips such an argument. -/
def machine_call_step {p : ℕ} (acc : WitgenInference p)
    (arg : MachineCallArgument p) : WitgenInference p :=
  match unknown_arg_cell arg with
  | some cell => { acc with known_cells := insert cell acc.known_cells }
  | none => acc

/-- Ingest one effect into the knowledge base (`ingest_effects` loop body). -/
def ingest_effect {p : ℕ} (s : WitgenInference p) (e : Effect p) :
    WitgenInference p :=
  match e with
  | Effect.Assignment cell assignment =>
    let s1 := { s with known_cells := insert cell s.known_cells }
    let s2 := match assignment.range_constraint with
      | some rc => add_range_constraint s1 cell rc
      | none => s1
    { s2 with code := s2.code ++ [e] }
  | Effect.RangeConstraint cell rc => add_range_constraint s cell rc
  | Effect.MachineCall _ args =>
    let s1 := args.foldl machine_call_step s
    { s1 with code := s1.code ++ [e] }
  | Effect.Assertion _ => { s with code := s.code ++ [e] }

/-- `ingest_effects`: fold all effects of a result into the knowledge base. -/
def ingest_effects {p : ℕ} (s : WitgenInference p) (effects : List (Effect p)) :
    WitgenInference p :=
  effects.foldl ingest_effect s

/-- The `ProcessResult` computed by `process_identity` before ingestion (the
`match` over identity kinds). -/
def process_result {p : ℕ} (s : WitgenInference p) (id : Identity p)
    (row_offset : Int) : ProcessResult p :=
  match id with
  | Identity.Polynomial _ expression =>
    process_polynomial_identity s expression row_offset
  | Identity.Lookup i left right => process_lookup s i left right row_offset
  | Identity.Permutation i left right => process_lookup s i left right row_offset
  | Identity.PhantomPermutation i left right =>
    process_lookup s i left right row_offset
  | Identity.PhantomLookup i left right =>
    process_lookup s i left right row_offset
  | Identity.PhantomBusInteraction => ProcessResult.empty
  | Identity.Connect => ProcessResult.empty

/-- `process_identity`: process one identity on one row, ingest the resulting
effects, and report whether the pair was fully processed. -/
def process_identity {p : ℕ} (s : WitgenInference p) (id : Identity p)
    (row_offset : Int) : WitgenInference p × Bool :=
  let result := process_result s id row_offset
  (ingest_effects s result.effects, result.complete)

/-- Run a sequence of `process_identity` calls (the external driver's loop
body), threading the state. -/
def run {p : ℕ} (s : WitgenInference p) :
    List (Identity p × Int) → WitgenInference p
  | [] => s
  | (id, off) :: rest => run (process_identity s id off).1 rest

end WitgenInference

/-- The cells that receive an `Assignment` effect in a code sequence, in
order. -/
def assigned_cells {p : ℕ} (code : List (Effect p)) : List Cell :=
  code.filterMap (fun e => match e with
    | Effect.Assignment c _ => some c
    | _ => none)

/-- The cells an effect makes known when it is replayed: the target of an
`Assignment`, or the cells supplied by the `Unknown` arguments of a
`MachineCall`. -/
def supplied_cells {p : ℕ} : Effect p → List Cell
  | Effect.Assignment c _ => [c]
  | Effect.MachineCall _ args => args.filterMap WitgenInference.unknown_arg_cell
  | _ => []

/-- The cells an `Assignment` or `MachineCall` effect reads as operands: the
known symbols inside the assigned value or inside the call arguments. -/
def referenced_cells {p : ℕ} : Effect p → List Cell
  | Effect.Assignment _ v => v.symbols
  | Effect.MachineCall _ args => (args.map (fun a => match a with
      | MachineCallArgument.Known v => v.symbols
      | MachineCallArgument.Unknown e => e.known_symbols)).flatten
  | _ => []

/-- Insert a list of cells into a set of cells. -/
def insert_all (k : Finset Cell) (cs : List Cell) : Finset Cell :=
  cs.foldl (fun k c => insert c k) k

/-- The set of cells known after replaying a code sequence from an initial
known set. -/
def replay_known {p : ℕ} (init : Finset Cell) (code : List (Effect p)) :
    Finset Cell :=
  code.foldl (fun k e => insert_all k (supplied_cells e)) init

/-- A code sequence is replayable from a known set: each effect references
only cells known when it is reached, and makes its supplied cells known. -/
def replayable {p : ℕ} (k : Finset Cell) : List (Effect p) → Prop
  | [] => True
  | e :: rest => (∀ c ∈ referenced_cells e, c ∈ k) ∧
      replayable (insert_all k (supplied_cells e)) rest

/-- Well-formedness of an evaluated affine expression with respect to a state:
its known symbols are known cells and its unknown cells are not known. -/
def eval_wf {p : ℕ} (s : WitgenInference p) (r : AffineSymbolicExpression p) :
    Prop :=
  (∀ x ∈ r.known_symbols, x ∈ s.known_cells) ∧
  (∀ x ∈ r.unknown_cells, x ∉ s.known_cells)

/-- Well-formedness of a machine-call argument with respect to a state. -/
def arg_ok {p : ℕ} (s : WitgenInference p) : MachineCallArgument p → Prop
  | MachineCallArgument.Known v => ∀ x ∈ v.symbols, x ∈ s.known_cells
  | MachineCallArgument.Unknown e => eval_wf s e

/-- The possible shapes of a `ProcessResult` produced by `process_result`:
no effects, a single assertion, a single assignment to a not-yet-known cell
whose value reads only known cells, or a single machine call with well-formed
arguments. -/
def result_ok {p : ℕ} (s : WitgenInference p) (r : ProcessResult p) : Prop :=
  r.effects = [] ∨
  (∃ a, r.effects = [Effect.Assertion a]) ∨
  (∃ c v, r.effects = [Effect.Assignment c v] ∧ c ∉ s.known_cells ∧
    ∀ x ∈ v.symbols, x ∈ s.known_cells) ∨
  (∃ i args, r.effects = [Effect.MachineCall i args] ∧ ∀ a ∈ args, arg_ok s a) ∨
  (∃ cell rc, r.effects = [Effect.RangeConstraint cell rc])

/-- The subterm relation on constraint expressions. -/
inductive Subterm {p : ℕ} : Expression p → Expression p → Prop where
  | refl (e : Expression p) : Subterm e e
  | bin_left {t l r : Expression p} (op : AlgebraicBinaryOperator) :
      Subterm t l → Subterm t (Expression.BinaryOperation l op r)
  | bin_right {t l r : Expression p} (op : AlgebraicBinaryOperator) :
      Subterm t r → Subterm t (Expression.BinaryOperation l op r)
  | unary {t e : Expression p} (op : AlgebraicUnaryOperator) :
      Subterm t e → Subterm t (Expression.UnaryOperation op e)

/-- A witness-column reference on the current row, used in concrete
instances. -/
def wref (n : String) (i : Nat) : AlgebraicReference :=
  ⟨n, i, PolynomialType.Committed, false⟩

/-- A fixed-column reference on the current row, used in concrete instances. -/
def fref (n : String) (i : Nat) : AlgebraicReference :=
  ⟨n, i, PolynomialType.Constant, false⟩

/-- A cell on row 0, used in concrete instances. -/
def wcell (n : String) (i : Nat) : Cell := ⟨n, i, 0⟩

/-- A fresh engine over `ZMod 11` with no known cells, no global constraints
and an uninformative fixed-value provider; used in concrete instances. -/
def sEmpty : WitgenInference 11 :=
  WitgenInference.new (fun _ _ => none) (fun _ => none) ∅

/-- A fresh engine over `ZMod 11` that knows the cell `X[0]`; used in concrete
instances. -/
def sKnownX : WitgenInference 11 :=
  WitgenInference.new (fun _ _ => none) (fun _ => none) {wcell "X" 0}

/-- A fresh engine over `ZMod 11` that knows the cells `X[0]` and `Z[2]`, with
a fixed-value provider that answers `7` for every fixed column; used in
concrete instances. -/
def sKnownXZ : WitgenInference 11 :=
  WitgenInference.new
    (fun r _ => if r.is_fixed then some 7 else none)
    (fun _ => none) {wcell "X" 0, wcell "Z" 2}

/-- The resolvability condition of a lookup-family identity (§4.3): static
right side, selector known to be one, all left expressions evaluate, and
exactly one of them is unknown with a single unknown variable. -/
def lookup_resolvable {p : ℕ} (s : WitgenInference p)
    (left right : SelectedExpressions p) (off : Int) : Prop :=
  right.expressions.all WitgenInference.rhs_fixed_or_number = true ∧
  ((WitgenInference.evaluate s left.selector off).bind
    (fun sl => sl.try_to_known.map SymbolicExpression.is_known_one)) = some true ∧
  ∃ lhs, WitgenInference.evaluate_all s left.expressions off = some lhs ∧
    (lhs.filter (fun e => e.try_to_known.isNone)).length = 1 ∧
    ((lhs.filter (fun e => e.try_to_known.isNone)).head?.bind
      AffineSymbolicExpression.single_unknown_variable).isSome = true

/-- An engine over `ZMod 11` with a derived range constraint `{3, 4}` already
recorded for the cell `W[0]`; used in concrete instances. -/
def sDerived : WitgenInference 11 :=
  { sEmpty with derived_range_constraints :=
      fun c => if c = wcell "W" 5 then some ⟨[3, 4]⟩ else none }

/-! ### Lemmas about symbols of known values and affine expressions -/

lemma se_symbols_add {p : ℕ} (a b : SymbolicExpression p) :
    ∀ x ∈ (SymbolicExpression.add a b).symbols,
      x ∈ a.symbols ∨ x ∈ b.symbols := by
  intro x hx
  cases a <;> cases b <;>
    simp [SymbolicExpression.add, SymbolicExpression.symbols] at hx ⊢ <;> tauto

lemma se_symbols_sub {p : ℕ} (a b : SymbolicExpression p) :
    ∀ x ∈ (SymbolicExpression.sub a b).symbols,
      x ∈ a.symbols ∨ x ∈ b.symbols := by
  intro x hx
  cases a <;> cases b <;>
    simp [SymbolicExpression.sub, SymbolicExpression.symbols] at hx ⊢ <;> tauto

lemma se_symbols_mul {p : ℕ} (a b : SymbolicExpression p) :
    ∀ x ∈ (SymbolicExpression.mul a b).symbols,
      x ∈ a.symbols ∨ x ∈ b.symbols := by
  intro x hx
  cases a <;> cases b <;>
    simp [SymbolicExpression.mul, SymbolicExpression.symbols] at hx ⊢ <;> tauto

lemma se_symbols_div {p : ℕ} (a b : SymbolicExpression p) :
    ∀ x ∈ (SymbolicExpression.div a b).symbols,
      x ∈ a.symbols ∨ x ∈ b.symbols := by
  intro x hx
  cases a <;> cases b <;>
    simp [SymbolicExpression.div, SymbolicExpression.symbols] at hx ⊢ <;> tauto

lemma se_symbols_neg {p : ℕ} (a : SymbolicExpression p) :
    ∀ x ∈ (SymbolicExpression.neg a).symbols, x ∈ a.symbols := by
  intro x hx
  cases a <;> simp [SymbolicExpression.neg, SymbolicExpression.symbols] at hx ⊢ <;> tauto

lemma se_symbols_foldr_add {p : ℕ} (l : List (SymbolicExpression p)) :
    ∀ x ∈ (l.foldr SymbolicExpression.add (SymbolicExpression.Concrete 0)).symbols,
      ∃ e ∈ l, x ∈ e.symbols := by
  induction l with
  | nil => intro x hx; simp [SymbolicExpression.symbols] at hx
  | cons h t ih =>
    intro x hx
    rcases se_symbols_add _ _ x hx with h1 | h1
    · exact ⟨h, by simp, h1⟩
    · rcases ih x h1 with ⟨e, he, hxe⟩
      exact ⟨e, by simp [he], hxe⟩

lemma coeffSum_symbols {p : ℕ} (l : List (Cell × SymbolicExpression p)) (c : Cell) :
    ∀ x ∈ (AffineSymbolicExpression.coeffSum l c).symbols,
      ∃ t ∈ l, x ∈ t.2.symbols := by
  intro x hx
  unfold AffineSymbolicExpression.coeffSum at hx
  rcases se_symbols_foldr_add _ x hx with ⟨e, he, hxe⟩
  rw [List.mem_map] at he
  rcases he with ⟨t, ht, rfl⟩
  exact ⟨t, (List.mem_filter.mp ht).1, hxe⟩

lemma addCoefficients_cells {p : ℕ} (a b : List (Cell × SymbolicExpression p)) :
    ∀ x ∈ (AffineSymbolicExpression.addCoefficients a b).map Prod.fst,
      x ∈ a.map Prod.fst ∨ x ∈ b.map Prod.fst := by
  intro x hx
  unfold AffineSymbolicExpression.addCoefficients at hx
  rw [List.mem_map] at hx
  rcases hx with ⟨t, ht, rfl⟩
  have ht1 := (List.mem_filter.mp ht).1
  rw [List.mem_map] at ht1
  rcases ht1 with ⟨c, hc, rfl⟩
  have hc' := List.mem_dedup.mp hc
  rw [List.map_append, List.mem_append] at hc'
  exact hc'

lemma addCoefficients_symbols {p : ℕ} (a b : List (Cell × SymbolicExpression p)) :
    ∀ t ∈ AffineSymbolicExpression.addCoefficients a b, ∀ x ∈ t.2.symbols,
      (∃ u ∈ a, x ∈ u.2.symbols) ∨ (∃ u ∈ b, x ∈ u.2.symbols) := by
  intro t ht x hx
  unfold AffineSymbolicExpression.addCoefficients at ht
  have ht1 := (List.mem_filter.mp ht).1
  rw [List.mem_map] at ht1
  rcases ht1 with ⟨c, _, rfl⟩
  rcases coeffSum_symbols _ _ x hx with ⟨u, hu, hxu⟩
  rw [List.mem_append] at hu
  rcases hu with hu | hu
  · exact Or.inl ⟨u, hu, hxu⟩
  · exact Or.inr ⟨u, hu, hxu⟩

lemma mem_known_symbols {p : ℕ} {e : AffineSymbolicExpression p} {x : Cell} :
    x ∈ e.known_symbols ↔
      x ∈ e.offset.symbols ∨ ∃ t ∈ e.coefficients, x ∈ t.2.symbols := by
  unfold AffineSymbolicExpression.known_symbols
  simp [List.mem_flatten]
  aesop

lemma mem_unknown_cells {p : ℕ} {e : AffineSymbolicExpression p} {x : Cell} :
    x ∈ e.unknown_cells ↔ ∃ k, (x, k) ∈ e.coefficients := by
  unfold AffineSymbolicExpression.unknown_cells
  simp [List.mem_map]

lemma eval_wf_of_number {p : ℕ} (s : WitgenInference p) (v : ZMod p) :
    eval_wf s (AffineSymbolicExpression.of_number v) := by
  constructor <;> intro x hx <;>
    simp [AffineSymbolicExpression.of_number, AffineSymbolicExpression.of_symbolic,
      AffineSymbolicExpression.known_symbols, AffineSymbolicExpression.unknown_cells,
      SymbolicExpression.symbols] at hx

lemma eval_wf_from_known_symbol {p : ℕ} {s : WitgenInference p} {c : Cell}
    (hc : c ∈ s.known_cells) :
    eval_wf s (AffineSymbolicExpression.from_known_symbol c) := by
  constructor <;> intro x hx <;>
    simp [AffineSymbolicExpression.from_known_symbol,
      AffineSymbolicExpression.of_symbolic,
      AffineSymbolicExpression.known_symbols, AffineSymbolicExpression.unknown_cells,
      SymbolicExpression.symbols] at hx
  · exact hx ▸ hc

lemma eval_wf_from_unknown_variable {p : ℕ} {s : WitgenInference p} {c : Cell}
    (hc : c ∉ s.known_cells) :
    eval_wf s ((AffineSymbolicExpression.from_unknown_variable c :
      AffineSymbolicExpression p)) := by
  constructor <;> intro x hx <;>
    simp [AffineSymbolicExpression.from_unknown_variable,
      AffineSymbolicExpression.known_symbols, AffineSymbolicExpression.unknown_cells,
      SymbolicExpression.symbols] at hx
  · exact hx ▸ hc

lemma eval_wf_add {p : ℕ} {s : WitgenInference p} {a b : AffineSymbolicExpression p}
    (ha : eval_wf s a) (hb : eval_wf s b) : eval_wf s (a.add b) := by
  constructor
  · intro x hx
    rw [mem_known_symbols] at hx
    rcases hx with hx | ⟨t, ht, hxt⟩
    · rcases se_symbols_add _ _ x hx with h | h
      · exact ha.1 x (mem_known_symbols.mpr (Or.inl h))
      · exact hb.1 x (mem_known_symbols.mpr (Or.inl h))
    · rcases addCoefficients_symbols _ _ t ht x hxt with ⟨u, hu, hxu⟩ | ⟨u, hu, hxu⟩
      · exact ha.1 x (mem_known_symbols.mpr (Or.inr ⟨u, hu, hxu⟩))
      · exact hb.1 x (mem_known_symbols.mpr (Or.inr ⟨u, hu, hxu⟩))
  · intro x hx
    rcases addCoefficients_cells _ _ x hx with h | h
    · exact ha.2 x h
    · exact hb.2 x h

lemma eval_wf_neg {p : ℕ} {s : WitgenInference p} {a : AffineSymbolicExpression p}
    (ha : eval_wf s a) : eval_wf s a.neg := by
  constructor
  · intro x hx
    rw [mem_known_symbols] at hx
    rcases hx with hx | ⟨t, ht, hxt⟩
    · exact ha.1 x (mem_known_symbols.mpr (Or.inl (se_symbols_neg _ x hx)))
    · simp only [AffineSymbolicExpression.neg, List.mem_map] at ht
      rcases ht with ⟨u, hu, rfl⟩
      exact ha.1 x (mem_known_symbols.mpr (Or.inr ⟨u, hu, se_symbols_neg _ x hxt⟩))
  · intro x hx
    rw [mem_unknown_cells] at hx
    rcases hx with ⟨k, hk⟩
    simp only [AffineSymbolicExpression.neg, List.mem_map] at hk
    rcases hk with ⟨t, ht, hteq⟩
    have : t.1 = x := congrArg Prod.fst hteq
    exact ha.2 x (mem_unknown_cells.mpr ⟨t.2, this ▸ ht⟩)

lemma eval_wf_sub {p : ℕ} {s : WitgenInference p} {a b : AffineSymbolicExpression p}
    (ha : eval_wf s a) (hb : eval_wf s b) : eval_wf s (a.sub b) :=
  eval_wf_add ha (eval_wf_neg hb)

lemma eval_wf_scale {p : ℕ} {s : WitgenInference p} {k : SymbolicExpression p}
    {a : AffineSymbolicExpression p} (hk : ∀ x ∈ k.symbols, x ∈ s.known_cells)
    (ha : eval_wf s a) : eval_wf s (AffineSymbolicExpression.scale k a) := by
  constructor
  · intro x hx
    rw [mem_known_symbols] at hx
    rcases hx with hx | ⟨t, ht, hxt⟩
    · rcases se_symbols_mul _ _ x hx with h | h
      · exact hk x h
      · exact ha.1 x (mem_known_symbols.mpr (Or.inl h))
    · simp only [AffineSymbolicExpression.scale, List.mem_map] at ht
      rcases ht with ⟨u, hu, rfl⟩
      rcases se_symbols_mul _ _ x hxt with h | h
      · exact hk x h
      · exact ha.1 x (mem_known_symbols.mpr (Or.inr ⟨u, hu, h⟩))
  · intro x hx
    rw [mem_unknown_cells] at hx
    rcases hx with ⟨k', hk'⟩
    simp only [AffineSymbolicExpression.scale, List.mem_map] at hk'
    rcases hk' with ⟨t, ht, hteq⟩
    have : t.1 = x := congrArg Prod.fst hteq
    exact ha.2 x (mem_unknown_cells.mpr ⟨t.2, this ▸ ht⟩)

lemma try_to_known_eq {p : ℕ} {e : AffineSymbolicExpression p}
    {k : SymbolicExpression p} (h : e.try_to_known = some k) :
    e.coefficients = [] ∧ k = e.offset := by
  unfold AffineSymbolicExpression.try_to_known at h
  by_cases hc : e.coefficients.isEmpty
  · simp [hc] at h
    exact ⟨List.isEmpty_iff.mp hc, h.symm⟩
  · simp [hc] at h

lemma eval_wf_known_symbols {p : ℕ} {s : WitgenInference p}
    {a : AffineSymbolicExpression p} {k : SymbolicExpression p}
    (ha : eval_wf s a) (h : a.try_to_known = some k) :
    ∀ x ∈ k.symbols, x ∈ s.known_cells := by
  intro x hx
  rcases try_to_known_eq h with ⟨_, rfl⟩
  exact ha.1 x (mem_known_symbols.mpr (Or.inl hx))

lemma eval_wf_try_mul {p : ℕ} {s : WitgenInference p}
    {a b r : AffineSymbolicExpression p} (ha : eval_wf s a) (hb : eval_wf s b)
    (h : a.try_mul b = some r) : eval_wf s r := by
  unfold AffineSymbolicExpression.try_mul at h
  cases hka : a.try_to_known with
  | some ka =>
    rw [hka] at h
    simp at h
    exact h ▸ eval_wf_scale (eval_wf_known_symbols ha hka) hb
  | none =>
    rw [hka] at h
    cases hkb : b.try_to_known with
    | some kb =>
      rw [hkb] at h
      simp at h
      exact h ▸ eval_wf_scale (eval_wf_known_symbols hb hkb) ha
    | none => rw [hkb] at h; simp at h

lemma evaluate_wf {p : ℕ} (s : WitgenInference p) :
    ∀ (e : Expression p) (off : Int) (r : AffineSymbolicExpression p),
      WitgenInference.evaluate s e off = some r → eval_wf s r := by
  intro e
  induction e with
  | Reference ref =>
    intro off r h
    simp only [WitgenInference.evaluate] at h
    by_cases hf : ref.is_fixed
    · simp only [hf, if_true] at h
      cases hv : s.fixed_evaluator ref off with
      | none => rw [hv] at h; simp at h
      | some v =>
        rw [hv] at h
        simp at h
        exact h ▸ eval_wf_of_number s v
    · simp only [hf] at h
      simp only [Bool.false_eq_true, if_false] at h
      cases hrc : ((s.range_constraint (Cell.from_reference ref off)).bind
          RangeConstraint.try_to_single_value) with
      | some val =>
        rw [hrc] at h
        simp at h
        exact h ▸ eval_wf_of_number s val
      | none =>
        rw [hrc] at h
        by_cases hmem : Cell.from_reference ref off ∈ s.known_cells
        · simp [hmem] at h
          exact h ▸ eval_wf_from_known_symbol hmem
        · simp [hmem] at h
          exact h ▸ eval_wf_from_unknown_variable hmem
  | PublicReference s' =>
    intro off r h
    simp [WitgenInference.evaluate] at h
  | Challenge i =>
    intro off r h
    simp [WitgenInference.evaluate] at h
  | Number n =>
    intro off r h
    simp [WitgenInference.evaluate] at h
    exact h ▸ eval_wf_of_number s n
  | BinaryOperation l op rr ihl ihr =>
    intro off r h
    simp only [WitgenInference.evaluate] at h
    cases hl : WitgenInference.evaluate s l off with
    | none => rw [hl] at h; simp at h
    | some left =>
      cases hr : WitgenInference.evaluate s rr off with
      | none => rw [hl, hr] at h; simp at h
      | some right =>
        rw [hl, hr] at h
        simp only [Option.bind_eq_bind, Option.some_bind] at h
        have wl := ihl off left hl
        have wr := ihr off right hr
        cases op with
        | Add => simp at h; exact h ▸ eval_wf_add wl wr
        | Sub => simp at h; exact h ▸ eval_wf_sub wl wr
        | Mul => simp at h; exact eval_wf_try_mul wl wr h
        | Pow =>
          cases hlk : left.try_to_known with
          | none => simp [hlk] at h
          | some lk =>
            cases hln : lk.try_to_number with
            | none => simp [hlk, hln] at h
            | some ln =>
              cases hrk : right.try_to_known with
              | none => simp [hlk, hln, hrk] at h
              | some rk =>
                cases hrn : rk.try_to_number with
                | none => simp [hlk, hln, hrk, hrn] at h
                | some rn =>
                  simp [hlk, hln, hrk, hrn] at h
                  exact h ▸ eval_wf_of_number s _
  | UnaryOperation op e ih =>
    intro off r h
    simp only [WitgenInference.evaluate] at h
    cases he : WitgenInference.evaluate s e off with
    | none => rw [he] at h; simp at h
    | some v =>
      rw [he] at h
      cases op with
      | Minus =>
        simp at h
        exact h ▸ eval_wf_neg (ih off v he)

lemma empty_result_ok {p : ℕ} (s : WitgenInference p) :
    result_ok s (ProcessResult.empty : ProcessResult p) :=
  Or.inl rfl

lemma solve_result_ok {p : ℕ} {s : WitgenInference p}
    {r : AffineSymbolicExpression p} (hr : eval_wf s r) :
    result_ok s r.solve := by
  rcases hc : r.coefficients with _ | ⟨⟨cell, coeff⟩, rest⟩
  · by_cases hz : r.offset.is_known_zero
    · left
      simp [AffineSymbolicExpression.solve, hc, hz]
    · right; left
      refine ⟨⟨r.offset, SymbolicExpression.Concrete 0, true⟩, ?_⟩
      simp [AffineSymbolicExpression.solve, hc, hz]
  · rcases rest with _ | ⟨t2, rest'⟩
    · right; right; left
      refine ⟨cell, SymbolicExpression.div (SymbolicExpression.neg r.offset) coeff,
        ?_, ?_, ?_⟩
      · simp [AffineSymbolicExpression.solve, hc]
      · exact hr.2 cell (mem_unknown_cells.mpr ⟨coeff, by simp [hc]⟩)
      · intro x hx
        rcases se_symbols_div _ _ x hx with h | h
        · exact hr.1 x (mem_known_symbols.mpr (Or.inl (se_symbols_neg _ x h)))
        · exact hr.1 x (mem_known_symbols.mpr (Or.inr ⟨(cell, coeff), by simp [hc], h⟩))
    · left
      simp [AffineSymbolicExpression.solve, hc]

lemma evaluate_all_wf {p : ℕ} (s : WitgenInference p) :
    ∀ (es : List (Expression p)) (off : Int) (lhs : List (AffineSymbolicExpression p)),
      WitgenInference.evaluate_all s es off = some lhs → ∀ e ∈ lhs, eval_wf s e := by
  intro es
  induction es with
  | nil =>
    intro off lhs h e he
    simp [WitgenInference.evaluate_all] at h
    subst h
    simp at he
  | cons hd tl ih =>
    intro off lhs h e he
    simp only [WitgenInference.evaluate_all] at h
    cases hhd : WitgenInference.evaluate s hd off with
    | none => rw [hhd] at h; simp at h
    | some v =>
      cases htl : WitgenInference.evaluate_all s tl off with
      | none => rw [hhd, htl] at h; simp at h
      | some vs =>
        rw [hhd, htl] at h
        simp at h
        subst h
        rcases List.mem_cons.mp he with rfl | he'
        · exact evaluate_wf s hd off e hhd
        · exact ih off vs htl e he'

lemma tag_argument_ok {p : ℕ} {s : WitgenInference p}
    {e : AffineSymbolicExpression p} (he : eval_wf s e) :
    arg_ok s (WitgenInference.tag_argument e) := by
  unfold WitgenInference.tag_argument
  cases hk : e.try_to_known with
  | some val =>
    simp only [arg_ok]
    exact eval_wf_known_symbols he hk
  | none => exact he

lemma lookup_result_ok {p : ℕ} (s : WitgenInference p) (i : Nat)
    (left right : SelectedExpressions p) (off : Int) :
    result_ok s (WitgenInference.process_lookup s i left right off) := by
  unfold WitgenInference.process_lookup
  by_cases h1 : right.expressions.all WitgenInference.rhs_fixed_or_number
  · simp only [h1, if_true]
    by_cases h2 : ((WitgenInference.evaluate s left.selector off).bind
        (fun sl => sl.try_to_known.map SymbolicExpression.is_known_one)) = some true
    · simp only [h2, if_true]
      cases hlhs : WitgenInference.evaluate_all s left.expressions off with
      | none => exact empty_result_ok s
      | some lhs =>
        by_cases h3 : (lhs.filter (fun e => e.try_to_known.isNone)).length = 1 ∧
            (((lhs.filter (fun e => e.try_to_known.isNone)).head?.bind
              AffineSymbolicExpression.single_unknown_variable).isSome)
        · simp only [h3, if_true]
          right; right; right; left
          refine ⟨i, lhs.map WitgenInference.tag_argument, rfl, ?_⟩
          intro a ha
          rw [List.mem_map] at ha
          rcases ha with ⟨e, he, rfl⟩
          exact tag_argument_ok (evaluate_all_wf s left.expressions off lhs hlhs e he)
        · simp only [h3, if_false]
          exact empty_result_ok s
    · simp only [h2, if_false]
      exact empty_result_ok s
  · simp only [h1]
    simp only [Bool.false_eq_true, if_false]
    exact empty_result_ok s

lemma process_result_ok {p : ℕ} (s : WitgenInference p) (id : Identity p)
    (off : Int) : result_ok s (WitgenInference.process_result s id off) := by
  cases id with
  | Polynomial i e =>
    simp only [WitgenInference.process_result]
    unfold WitgenInference.process_polynomial_identity
    cases he : WitgenInference.evaluate s e off with
    | none => exact empty_result_ok s
    | some r => exact solve_result_ok (evaluate_wf s e off r he)
  | Lookup i l r => exact lookup_result_ok s i l r off
  | Permutation i l r => exact lookup_result_ok s i l r off
  | PhantomPermutation i l r => exact lookup_result_ok s i l r off
  | PhantomLookup i l r => exact lookup_result_ok s i l r off
  | PhantomBusInteraction => exact empty_result_ok s
  | Connect => exact empty_result_ok s

/-! ### Lemmas about the knowledge-base update functions -/

lemma insert_all_nil (k : Finset Cell) : insert_all k [] = k := rfl

lemma insert_all_cons (k : Finset Cell) (c : Cell) (t : List Cell) :
    insert_all k (c :: t) = insert_all (insert c k) t := rfl

lemma mem_insert_all (cs : List Cell) :
    ∀ (k : Finset Cell) (x : Cell), x ∈ insert_all k cs ↔ x ∈ k ∨ x ∈ cs := by
  induction cs with
  | nil => intro k x; simp [insert_all_nil]
  | cons c t ih =>
    intro k x
    rw [insert_all_cons, ih]
    simp [Finset.mem_insert]
    tauto

lemma subset_insert_all (k : Finset Cell) (cs : List Cell) :
    k ⊆ insert_all k cs := fun x hx => (mem_insert_all cs k x).mpr (Or.inl hx)

lemma arc_of_known {p : ℕ} {s : WitgenInference p} {cell : Cell}
    {rc : RangeConstraint p} (h : cell ∈ s.known_cells) :
    WitgenInference.add_range_constraint s cell rc =
      { s with derived_range_constraints :=
          fun c => if c = cell then some (WitgenInference.merged_rc s cell rc)
                   else s.derived_range_constraints c } := by
  unfold WitgenInference.add_range_constraint
  simp [h]

lemma arc_of_unknown_some {p : ℕ} {s : WitgenInference p} {cell : Cell}
    {rc : RangeConstraint p} {v : ZMod p} (h : cell ∉ s.known_cells)
    (hv : (WitgenInference.merged_rc s cell rc).try_to_single_value = some v) :
    WitgenInference.add_range_constraint s cell rc =
      { s with known_cells := insert cell s.known_cells
               code := s.code ++ [Effect.Assignment cell (SymbolicExpression.Concrete v)]
               derived_range_constraints :=
                 fun c => if c = cell then some (WitgenInference.merged_rc s cell rc)
                          else s.derived_range_constraints c } := by
  unfold WitgenInference.add_range_constraint
  simp [h, hv]

lemma arc_of_unknown_none {p : ℕ} {s : WitgenInference p} {cell : Cell}
    {rc : RangeConstraint p} (h : cell ∉ s.known_cells)
    (hv : (WitgenInference.merged_rc s cell rc).try_to_single_value = none) :
    WitgenInference.add_range_constraint s cell rc =
      { s with derived_range_constraints :=
          fun c => if c = cell then some (WitgenInference.merged_rc s cell rc)
                   else s.derived_range_constraints c } := by
  unfold WitgenInference.add_range_constraint
  simp [h, hv]

lemma conjunction_subset_left {p : ℕ} (a b : RangeConstraint p) :
    ∀ x ∈ (a.conjunction b).allowed, x ∈ a.allowed := by
  intro x hx
  exact (List.mem_filter.mp hx).1

lemma range_constraint_of_derived {p : ℕ} {s : WitgenInference p} {cell : Cell}
    {d : RangeConstraint p} (hd : s.derived_range_constraints cell = some d) :
    ∃ rc0, s.range_constraint cell = some rc0 ∧ ∀ x ∈ rc0.allowed, x ∈ d.allowed := by
  unfold WitgenInference.range_constraint
  cases hg : s.global_range_constraints cell.id with
  | none =>
    rw [hd]
    exact ⟨d, rfl, fun x hx => hx⟩
  | some g =>
    rw [hd]
    refine ⟨g.conjunction d, rfl, ?_⟩
    intro x hx
    have := (List.mem_filter.mp hx).2
    simpa using this

lemma merged_rc_tightens {p : ℕ} {s : WitgenInference p} {cell : Cell}
    {rc : RangeConstraint p} {d : RangeConstraint p}
    (hd : s.derived_range_constraints cell = some d) :
    ∀ x ∈ (WitgenInference.merged_rc s cell rc).allowed, x ∈ d.allowed := by
  intro x hx
  rcases range_constraint_of_derived hd with ⟨rc0, hrc0, hsub⟩
  unfold WitgenInference.merged_rc at hx
  rw [hrc0] at hx
  exact hsub x (conjunction_subset_left _ _ x hx)

lemma arc_derived {p : ℕ} (s : WitgenInference p) (cell : Cell)
    (rc : RangeConstraint p) :
    (WitgenInference.add_range_constraint s cell rc).derived_range_constraints =
      fun c => if c = cell then some (WitgenInference.merged_rc s cell rc)
               else s.derived_range_constraints c := by
  by_cases h : cell ∈ s.known_cells
  · rw [arc_of_known h]
  · cases hv : (WitgenInference.merged_rc s cell rc).try_to_single_value with
    | some v => rw [arc_of_unknown_some h hv]
    | none => rw [arc_of_unknown_none h hv]

lemma arc_known_mono {p : ℕ} (s : WitgenInference p) (cell : Cell)
    (rc : RangeConstraint p) :
    s.known_cells ⊆ (WitgenInference.add_range_constraint s cell rc).known_cells := by
  by_cases h : cell ∈ s.known_cells
  · rw [arc_of_known h]
  · cases hv : (WitgenInference.merged_rc s cell rc).try_to_single_value with
    | some v =>
      rw [arc_of_unknown_some h hv]
      intro x hx
      simp [Finset.mem_insert]
      tauto
    | none => rw [arc_of_unknown_none h hv]

lemma machine_foldl_spec {p : ℕ} (args : List (MachineCallArgument p)) :
    ∀ (s : WitgenInference p),
      (args.foldl WitgenInference.machine_call_step s).known_cells =
        insert_all s.known_cells (args.filterMap WitgenInference.unknown_arg_cell) ∧
      (args.foldl WitgenInference.machine_call_step s).code = s.code ∧
      (args.foldl WitgenInference.machine_call_step s).derived_range_constraints =
        s.derived_range_constraints := by
  induction args with
  | nil => intro s; exact ⟨rfl, rfl, rfl⟩
  | cons a t ih =>
    intro s
    simp only [List.foldl_cons, List.filterMap_cons]
    cases ha : WitgenInference.unknown_arg_cell a with
    | none =>
      have hstep : WitgenInference.machine_call_step s a = s := by
        unfold WitgenInference.machine_call_step
        rw [ha]
      rw [hstep]
      exact ih s
    | some c =>
      have hstep : WitgenInference.machine_call_step s a =
          { s with known_cells := insert c s.known_cells } := by
        unfold WitgenInference.machine_call_step
        rw [ha]
      rw [hstep]
      rcases ih { s with known_cells := insert c s.known_cells } with ⟨h1, h2, h3⟩
      exact ⟨by rw [h1, insert_all_cons], h2, h3⟩

lemma ingest_assertion_eq {p : ℕ} (s : WitgenInference p) (a : Assertion p) :
    WitgenInference.ingest_effect s (Effect.Assertion a) =
      { s with code := s.code ++ [Effect.Assertion a] } := rfl

lemma ingest_rc_eq {p : ℕ} (s : WitgenInference p) (cell : Cell)
    (rc : RangeConstraint p) :
    WitgenInference.ingest_effect s (Effect.RangeConstraint cell rc) =
      WitgenInference.add_range_constraint s cell rc := rfl

lemma ingest_machine_eq {p : ℕ} (s : WitgenInference p) (i : Nat)
    (args : List (MachineCallArgument p)) :
    WitgenInference.ingest_effect s (Effect.MachineCall i args) =
      { args.foldl WitgenInference.machine_call_step s with
        code := (args.foldl WitgenInference.machine_call_step s).code ++
          [Effect.MachineCall i args] } := rfl

lemma ingest_assignment_spec {p : ℕ} (s : WitgenInference p) (cell : Cell)
    (v : SymbolicExpression p) :
    (WitgenInference.ingest_effect s (Effect.Assignment cell v)).known_cells =
      insert cell s.known_cells ∧
    (WitgenInference.ingest_effect s (Effect.Assignment cell v)).code =
      s.code ++ [Effect.Assignment cell v] ∧
    (WitgenInference.ingest_effect s (Effect.Assignment cell v)).derived_range_constraints =
      (match v.range_constraint with
       | some rc => fun c =>
          if c = cell then
            some (WitgenInference.merged_rc
              { s with known_cells := insert cell s.known_cells } cell rc)
          else s.derived_range_constraints c
       | none => s.derived_range_constraints) := by
  cases hrc : v.range_constraint with
  | none =>
    simp only [WitgenInference.ingest_effect, hrc]
    refine ⟨?_, ?_, ?_⟩ <;> trivial
  | some rc =>
    have hmem : cell ∈
        ({ s with known_cells := insert cell s.known_cells } :
          WitgenInference p).known_cells := by
      simp
    simp only [WitgenInference.ingest_effect, hrc, arc_of_known hmem]
    refine ⟨?_, ?_, ?_⟩ <;> trivial

lemma ingest_known_mono {p : ℕ} (s : WitgenInference p) (e : Effect p) :
    s.known_cells ⊆ (WitgenInference.ingest_effect s e).known_cells := by
  cases e with
  | Assignment cell v =>
    rw [(ingest_assignment_spec s cell v).1]
    exact Finset.subset_insert cell s.known_cells
  | RangeConstraint cell rc =>
    rw [ingest_rc_eq]
    exact arc_known_mono s cell rc
  | MachineCall i args =>
    rw [ingest_machine_eq]
    show s.known_cells ⊆ (args.foldl WitgenInference.machine_call_step s).known_cells
    rw [(machine_foldl_spec args s).1]
    exact subset_insert_all _ _
  | Assertion a =>
    rw [ingest_assertion_eq]

lemma ingest_derived_tighten {p : ℕ} (s : WitgenInference p) (e : Effect p)
    (c : Cell) (d : RangeConstraint p)
    (hd : s.derived_range_constraints c = some d) :
    ∃ d', (WitgenInference.ingest_effect s e).derived_range_constraints c = some d' ∧
      ∀ x ∈ d'.allowed, x ∈ d.allowed := by
  cases e with
  | Assignment cell v =>
    rw [(ingest_assignment_spec s cell v).2.2]
    cases hrc : v.range_constraint with
    | none => exact ⟨d, hd, fun x hx => hx⟩
    | some rc =>
      by_cases hc : c = cell
      · subst hc
        simp only [if_pos rfl]
        exact ⟨_, rfl,
          @merged_rc_tightens p { s with known_cells := insert c s.known_cells }
            c rc d hd⟩
      · simp only [if_neg hc]
        exact ⟨d, hd, fun x hx => hx⟩
  | RangeConstraint cell rc =>
    rw [ingest_rc_eq, arc_derived]
    by_cases hc : c = cell
    · subst hc
      simp only [if_pos rfl]
      exact ⟨_, rfl, merged_rc_tightens hd⟩
    · simp only [if_neg hc]
      exact ⟨d, hd, fun x hx => hx⟩
  | MachineCall i args =>
    rw [ingest_machine_eq]
    show ∃ d', (args.foldl WitgenInference.machine_call_step s).derived_range_constraints c
      = some d' ∧ _
    rw [(machine_foldl_spec args s).2.2]
    exact ⟨d, hd, fun x hx => hx⟩
  | Assertion a =>
    rw [ingest_assertion_eq]
    exact ⟨d, hd, fun x hx => hx⟩

lemma ingest_effects_known_mono {p : ℕ} (effects : List (Effect p)) :
    ∀ s : WitgenInference p,
      s.known_cells ⊆ (WitgenInference.ingest_effects s effects).known_cells := by
  induction effects with
  | nil => intro s; exact fun x hx => hx
  | cons e t ih =>
    intro s
    exact Finset.Subset.trans (ingest_known_mono s e)
      (ih (WitgenInference.ingest_effect s e))

lemma ingest_effects_tighten {p : ℕ} (effects : List (Effect p)) :
    ∀ (s : WitgenInference p) (c : Cell) (d : RangeConstraint p),
      s.derived_range_constraints c = some d →
      ∃ d', (WitgenInference.ingest_effects s effects).derived_range_constraints c
          = some d' ∧ ∀ x ∈ d'.allowed, x ∈ d.allowed := by
  induction effects with
  | nil => intro s c d hd; exact ⟨d, hd, fun x hx => hx⟩
  | cons e t ih =>
    intro s c d hd
    rcases ingest_derived_tighten s e c d hd with ⟨d1, hd1, hs1⟩
    rcases ih (WitgenInference.ingest_effect s e) c d1 hd1 with ⟨d', hd', hs'⟩
    exact ⟨d', hd', fun x hx => hs1 x (hs' x hx)⟩

lemma process_identity_known_mono {p : ℕ} (s : WitgenInference p)
    (id : Identity p) (off : Int) :
    s.known_cells ⊆ (WitgenInference.process_identity s id off).1.known_cells :=
  ingest_effects_known_mono _ s

lemma process_identity_tighten {p : ℕ} (s : WitgenInference p) (id : Identity p)
    (off : Int) (c : Cell) (d : RangeConstraint p)
    (hd : s.derived_range_constraints c = some d) :
    ∃ d', (WitgenInference.process_identity s id off).1.derived_range_constraints c
        = some d' ∧ ∀ x ∈ d'.allowed, x ∈ d.allowed :=
  ingest_effects_tighten _ s c d hd

lemma run_known_mono {p : ℕ} (calls : List (Identity p × Int)) :
    ∀ s : WitgenInference p,
      s.known_cells ⊆ (WitgenInference.run s calls).known_cells := by
  induction calls with
  | nil => intro s; exact fun x hx => hx
  | cons c t ih =>
    intro s
    exact Finset.Subset.trans (process_identity_known_mono s c.1 c.2)
      (ih (WitgenInference.process_identity s c.1 c.2).1)

lemma run_tighten {p : ℕ} (calls : List (Identity p × Int)) :
    ∀ (s : WitgenInference p) (c : Cell) (d : RangeConstraint p),
      s.derived_range_constraints c = some d →
      ∃ d', (WitgenInference.run s calls).derived_range_constraints c = some d' ∧
        ∀ x ∈ d'.allowed, x ∈ d.allowed := by
  induction calls with
  | nil => intro s c d hd; exact ⟨d, hd, fun x hx => hx⟩
  | cons cl t ih =>
    intro s c d hd
    rcases process_identity_tighten s cl.1 cl.2 c d hd with ⟨d1, hd1, hs1⟩
    rcases ih (WitgenInference.process_identity s cl.1 cl.2).1 c d1 hd1 with
      ⟨d', hd', hs'⟩
    exact ⟨d', hd', fun x hx => hs1 x (hs' x hx)⟩

/-! ### Lemmas about replaying generated code -/

lemma replay_known_snoc {p : ℕ} (init : Finset Cell) (l : List (Effect p))
    (e : Effect p) :
    replay_known init (l ++ [e]) = insert_all (replay_known init l) (supplied_cells e) := by
  simp [replay_known, List.foldl_append]

lemma replayable_snoc {p : ℕ} (e : Effect p) :
    ∀ (l : List (Effect p)) (k : Finset Cell), replayable k l →
      (∀ c ∈ referenced_cells e, c ∈ replay_known k l) → replayable k (l ++ [e]) := by
  intro l
  induction l with
  | nil =>
    intro k _ href
    exact ⟨href, trivial⟩
  | cons hd tl ih =>
    intro k hrep href
    exact ⟨hrep.1, ih _ hrep.2 href⟩

lemma assigned_cells_append {p : ℕ} (l₁ l₂ : List (Effect p)) :
    assigned_cells (l₁ ++ l₂) = assigned_cells l₁ ++ assigned_cells l₂ := by
  simp [assigned_cells]

lemma replay_known_base_mono {p : ℕ} (l : List (Effect p)) :
    ∀ k : Finset Cell, k ⊆ replay_known k l := by
  induction l with
  | nil => intro k; exact fun x hx => hx
  | cons e t ih =>
    intro k
    exact Finset.Subset.trans (subset_insert_all k (supplied_cells e))
      (ih (insert_all k (supplied_cells e)))

lemma assigned_subset_replay {p : ℕ} (l : List (Effect p)) :
    ∀ (init : Finset Cell) (c : Cell), c ∈ assigned_cells l →
      c ∈ replay_known init l := by
  induction l with
  | nil => intro init c hc; simp [assigned_cells] at hc
  | cons e t ih =>
    intro init c hc
    have hrepl : replay_known init (e :: t) =
        replay_known (insert_all init (supplied_cells e)) t := rfl
    rw [hrepl]
    cases e with
    | Assignment c0 v =>
      simp only [assigned_cells, List.filterMap_cons] at hc
      rcases List.mem_cons.mp hc with rfl | hc'
      · exact replay_known_base_mono t _
          ((mem_insert_all _ _ _).mpr (Or.inr (by simp [supplied_cells])))
      · exact ih _ c hc'
    | RangeConstraint c0 rc =>
      simp only [assigned_cells, List.filterMap_cons] at hc
      exact ih _ c hc
    | MachineCall i args =>
      simp only [assigned_cells, List.filterMap_cons] at hc
      exact ih _ c hc
    | Assertion a =>
      simp only [assigned_cells, List.filterMap_cons] at hc
      exact ih _ c hc

lemma ingest_result_inv {p : ℕ} {init : Finset Cell} {s : WitgenInference p}
    {r : ProcessResult p} (hr : result_ok s r)
    (h1 : (assigned_cells s.code).Nodup)
    (h2 : replayable init s.code)
    (h3 : replay_known init s.code = s.known_cells) :
    (assigned_cells (WitgenInference.ingest_effects s r.effects).code).Nodup ∧
    replayable init (WitgenInference.ingest_effects s r.effects).code ∧
    replay_known init (WitgenInference.ingest_effects s r.effects).code =
      (WitgenInference.ingest_effects s r.effects).known_cells := by
  rcases hr with h | ⟨a, h⟩ | ⟨c, v, h, hcn, hv⟩ | ⟨i, args, h, hargs⟩ |
    ⟨cell, rc, h⟩ <;> rw [h]
  · exact ⟨h1, h2, h3⟩
  · rw [show WitgenInference.ingest_effects s [Effect.Assertion a] =
      { s with code := s.code ++ [Effect.Assertion a] } from rfl]
    refine ⟨?_, ?_, ?_⟩
    · show (assigned_cells (s.code ++ [Effect.Assertion a])).Nodup
      rw [assigned_cells_append]
      simpa [assigned_cells] using h1
    · exact replayable_snoc _ _ _ h2
        (by intro x hx; simp [referenced_cells] at hx)
    · show replay_known init (s.code ++ [Effect.Assertion a]) = s.known_cells
      rw [replay_known_snoc, h3]
      rfl
  · obtain ⟨hK, hC, _⟩ := ingest_assignment_spec s c v
    rw [show WitgenInference.ingest_effects s [Effect.Assignment c v] =
      WitgenInference.ingest_effect s (Effect.Assignment c v) from rfl]
    have hassigned : c ∉ assigned_cells s.code := fun hm =>
      hcn (h3 ▸ assigned_subset_replay _ init c hm)
    refine ⟨?_, ?_, ?_⟩
    · rw [hC, assigned_cells_append]
      have hone : assigned_cells [Effect.Assignment c v] = [c] := by
        simp [assigned_cells]
      rw [hone, List.nodup_append]
      refine ⟨h1, List.nodup_singleton c, ?_⟩
      intro x hx hx'
      simp at hx'
      subst hx'
      exact hassigned hx
    · rw [hC]
      refine replayable_snoc _ _ _ h2 ?_
      intro x hx
      rw [h3]
      simp only [referenced_cells] at hx
      exact hv x hx
    · rw [hC, hK, replay_known_snoc, h3]
      rfl
  · obtain ⟨hK, hC, _⟩ := machine_foldl_spec args s
    rw [show WitgenInference.ingest_effects s [Effect.MachineCall i args] =
      WitgenInference.ingest_effect s (Effect.MachineCall i args) from rfl,
      ingest_machine_eq]
    refine ⟨?_, ?_, ?_⟩
    · show (assigned_cells ((args.foldl WitgenInference.machine_call_step s).code ++
        [Effect.MachineCall i args])).Nodup
      rw [hC, assigned_cells_append]
      simpa [assigned_cells] using h1
    · show replayable init ((args.foldl WitgenInference.machine_call_step s).code ++
        [Effect.MachineCall i args])
      rw [hC]
      refine replayable_snoc _ _ _ h2 ?_
      intro x hx
      rw [h3]
      simp only [referenced_cells, List.mem_flatten, List.mem_map] at hx
      rcases hx with ⟨l, ⟨a, ha, rfl⟩, hxl⟩
      have hok := hargs a ha
      cases a with
      | Known kv => exact hok x hxl
      | Unknown ue => exact hok.1 x hxl
    · show replay_known init ((args.foldl WitgenInference.machine_call_step s).code ++
        [Effect.MachineCall i args]) =
        (args.foldl WitgenInference.machine_call_step s).known_cells
      rw [hC, replay_known_snoc, h3, hK]
      rfl
  · rw [show WitgenInference.ingest_effects s [Effect.RangeConstraint cell rc] =
      WitgenInference.add_range_constraint s cell rc from rfl]
    by_cases hk : cell ∈ s.known_cells
    · rw [arc_of_known hk]
      exact ⟨h1, h2, h3⟩
    · cases hv' : (WitgenInference.merged_rc s cell rc).try_to_single_value with
      | none =>
        rw [arc_of_unknown_none hk hv']
        exact ⟨h1, h2, h3⟩
      | some v =>
        rw [arc_of_unknown_some hk hv']
        have hassigned : cell ∉ assigned_cells s.code := fun hm =>
          hk (h3 ▸ assigned_subset_replay _ init cell hm)
        refine ⟨?_, ?_, ?_⟩
        · show (assigned_cells (s.code ++
            [Effect.Assignment cell (SymbolicExpression.Concrete v)])).Nodup
          rw [assigned_cells_append]
          have hone : assigned_cells
              [Effect.Assignment cell (SymbolicExpression.Concrete v :
                SymbolicExpression p)] =
              [cell] := by
            simp [assigned_cells]
          rw [hone, List.nodup_append]
          refine ⟨h1, List.nodup_singleton cell, ?_⟩
          intro x hx hx'
          simp at hx'
          subst hx'
          exact hassigned hx
        · refine replayable_snoc _ _ _ h2 ?_
          intro x hx
          simp [referenced_cells, SymbolicExpression.symbols] at hx
        · show replay_known init (s.code ++
            [Effect.Assignment cell (SymbolicExpression.Concrete v)]) =
            insert cell s.known_cells
          rw [replay_known_snoc, h3]
          rfl

lemma run_state_inv {p : ℕ} (calls : List (Identity p × Int)) :
    ∀ (init : Finset Cell) (s : WitgenInference p),
      (assigned_cells s.code).Nodup → replayable init s.code →
      replay_known init s.code = s.known_cells →
      (assigned_cells (WitgenInference.run s calls).code).Nodup ∧
      replayable init (WitgenInference.run s calls).code ∧
      replay_known init (WitgenInference.run s calls).code =
        (WitgenInference.run s calls).known_cells := by
  induction calls with
  | nil => intro init s t1 t2 t3; exact ⟨t1, t2, t3⟩
  | cons cl t ih =>
    intro init s t1 t2 t3
    obtain ⟨id, off⟩ := cl
    have step := ingest_result_inv (process_result_ok s id off) t1 t2 t3
    exact ih init _ step.1 step.2.1 step.2.2

lemma process_lookup_cases {p : ℕ} (s : WitgenInference p) (i : Nat)
    (left right : SelectedExpressions p) (off : Int) :
    (lookup_resolvable s left right off ∧
     ∀ lhs, WitgenInference.evaluate_all s left.expressions off = some lhs →
       WitgenInference.process_lookup s i left right off =
         ⟨[Effect.MachineCall i (lhs.map WitgenInference.tag_argument)], true⟩) ∨
    (¬ lookup_resolvable s left right off ∧
     WitgenInference.process_lookup s i left right off = ProcessResult.empty) := by
  by_cases h1 : right.expressions.all WitgenInference.rhs_fixed_or_number
  · by_cases h2 : ((WitgenInference.evaluate s left.selector off).bind
        (fun sl => sl.try_to_known.map SymbolicExpression.is_known_one)) = some true
    · cases hlhs : WitgenInference.evaluate_all s left.expressions off with
      | none =>
        right
        constructor
        · rintro ⟨-, -, lhs, hl, -⟩
          rw [hlhs] at hl
          cases hl
        · unfold WitgenInference.process_lookup
          simp only [h1, if_true, h2, hlhs]
      | some lhs =>
        by_cases h3 : (lhs.filter (fun e => e.try_to_known.isNone)).length = 1 ∧
            (((lhs.filter (fun e => e.try_to_known.isNone)).head?.bind
              AffineSymbolicExpression.single_unknown_variable).isSome)
        · left
          refine ⟨⟨h1, h2, lhs, hlhs, h3.1, h3.2⟩, ?_⟩
          intro lhs' hl'
          have hl2 : lhs = lhs' := Option.some.inj (hlhs ▸ hl')
          subst hl2
          unfold WitgenInference.process_lookup
          simp only [h1, if_true, h2, hlhs, h3, and_self]
        · right
          constructor
          · rintro ⟨-, -, lhs', hl', hlen, hsome⟩
            have hl2 : lhs = lhs' := Option.some.inj (hlhs ▸ hl')
            subst hl2
            exact h3 ⟨hlen, hsome⟩
          · unfold WitgenInference.process_lookup
            simp only [h1, if_true, h2, hlhs]
            rw [if_neg]
            exact h3
    · right
      refine ⟨fun hres => h2 hres.2.1, ?_⟩
      unfold WitgenInference.process_lookup
      simp only [h1, if_true, h2, if_false]
  · right
    refine ⟨fun hres => h1 hres.1, ?_⟩
    unfold WitgenInference.process_lookup
    rw [if_neg]
    exact h1

/-! ### Claim theorems -/

/-- C1: For every polynomial identity whose expression evaluates successfully
at the given row, `process_identity` never panics: if the evaluated expression
has zero unknown terms and a non-zero known constant (a genuinely conflicting
constraint), the conflict is lowered into an `Assertion` effect appended to
`code` and the call returns complete, rather than being raised as an
engine-level error. -/
theorem c1_conflict_becomes_assertion {p : ℕ} (s : WitgenInference p) (i : Nat)
    (e : Expression p) (off : Int) (r : AffineSymbolicExpression p) (k : ZMod p)
    (hev : WitgenInference.evaluate s e off = some r)
    (hco : r.coefficients = [])
    (hof : r.offset = SymbolicExpression.Concrete k)
    (hk : k ≠ 0) :
    (WitgenInference.process_identity s (Identity.Polynomial i e) off).2 = true ∧
    (WitgenInference.process_identity s (Identity.Polynomial i e) off).1.code =
      s.code ++ [Effect.Assertion
        ⟨SymbolicExpression.Concrete k, SymbolicExpression.Concrete 0, true⟩] := by
  have hres : WitgenInference.process_result s (Identity.Polynomial i e) off =
      ⟨[Effect.Assertion
        ⟨SymbolicExpression.Concrete k, SymbolicExpression.Concrete 0, true⟩],
       true⟩ := by
    simp only [WitgenInference.process_result]
    unfold WitgenInference.process_polynomial_identity
    rw [hev]
    show AffineSymbolicExpression.solve r = _
    unfold AffineSymbolicExpression.solve
    simp only [hco, hof]
    simp [SymbolicExpression.is_known_zero, SymbolicExpression.try_to_number, hk]
  constructor
  · show (WitgenInference.process_identity s (Identity.Polynomial i e) off).2 = true
    unfold WitgenInference.process_identity
    rw [hres]
  · unfold WitgenInference.process_identity
    rw [hres]
    rfl

/-- C1 witness: the constantly-5 polynomial identity on the empty engine. -/
theorem c1_witness :
    (WitgenInference.process_identity sEmpty
      (Identity.Polynomial 0 (Expression.Number 5)) 0).2 = true ∧
    (WitgenInference.process_identity sEmpty
      (Identity.Polynomial 0 (Expression.Number 5)) 0).1.code =
      sEmpty.code ++ [Effect.Assertion
        ⟨SymbolicExpression.Concrete 5, SymbolicExpression.Concrete 0, true⟩] :=
  c1_conflict_becomes_assertion sEmpty 0 (Expression.Number 5) 0
    (AffineSymbolicExpression.of_number 5) 5 rfl rfl rfl (by decide)

/-- C3: For any sequence of `process_identity` calls on one `WitgenInference`
instance, `known_cells` grows monotonically and each cell's entry in
`derived_range_constraints` only tightens over time (every new stored
constraint is a subset of the old one). -/
theorem c3_monotonicity {p : ℕ} (s : WitgenInference p)
    (calls : List (Identity p × Int)) :
    s.known_cells ⊆ (WitgenInference.run s calls).known_cells ∧
    ∀ (c : Cell) (d d' : RangeConstraint p),
      s.derived_range_constraints c = some d →
      (WitgenInference.run s calls).derived_range_constraints c = some d' →
      ∀ x ∈ d'.allowed, x ∈ d.allowed := by
  refine ⟨run_known_mono calls s, ?_⟩
  intro c d d' hd hd'
  rcases run_tighten calls s c d hd with ⟨d'', hd'', hsub⟩
  rw [hd'] at hd''
  have : d'' = d' := Option.some.inj hd''.symm
  subst this
  exact hsub

/-- C3 witness: a no-op call sequence on an engine with a derived constraint. -/
theorem c3_witness :
    sDerived.known_cells ⊆
      (WitgenInference.run sDerived
        [(Identity.Polynomial 0 (Expression.Number 0), 0)]).known_cells ∧
    ∀ x ∈ (⟨[3, 4]⟩ : RangeConstraint 11).allowed,
      x ∈ (⟨[3, 4]⟩ : RangeConstraint 11).allowed :=
  ⟨(c3_monotonicity sDerived
      [(Identity.Polynomial 0 (Expression.Number 0), 0)]).1,
   (c3_monotonicity sDerived
      [(Identity.Polynomial 0 (Expression.Number 0), 0)]).2 (wcell "W" 5)
      ⟨[3, 4]⟩ ⟨[3, 4]⟩ (by decide) (by decide)⟩

/-- C4: Over the whole lifetime of one `WitgenInference` instance (constructed
by `new`) and any sequence of `process_identity` calls, no cell ever receives
more than one `Assignment` effect in the code sequence (counting assignments
from equation solving and assignments synthesized by range-constraint
promotion). -/
theorem c4_at_most_one_assignment {p : ℕ}
    (fe : AlgebraicReference → Int → Option (ZMod p))
    (g : Nat → Option (RangeConstraint p)) (k₀ : Finset Cell)
    (calls : List (Identity p × Int)) :
    (assigned_cells
      (WitgenInference.run (WitgenInference.new fe g k₀) calls).code).Nodup := by
  have base1 : (assigned_cells (WitgenInference.new fe g k₀).code).Nodup := by
    simp [WitgenInference.new, assigned_cells]
  exact (run_state_inv calls k₀ (WitgenInference.new fe g k₀) base1 trivial rfl).1

/-- C5: For any sequence of `process_identity` calls, the final code sequence
is replayable top to bottom: every cell referenced as an operand by an
`Assignment` or `MachineCall` effect is already known at that point in the
sequence — assigned earlier, supplied by an earlier `MachineCall`, or in the
known set passed at construction. -/
theorem c5_executability {p : ℕ}
    (fe : AlgebraicReference → Int → Option (ZMod p))
    (g : Nat → Option (RangeConstraint p)) (k₀ : Finset Cell)
    (calls : List (Identity p × Int)) :
    replayable k₀ (WitgenInference.run (WitgenInference.new fe g k₀) calls).code := by
  have base1 : (assigned_cells (WitgenInference.new fe g k₀).code).Nodup := by
    simp [WitgenInference.new, assigned_cells]
  exact (run_state_inv calls k₀ (WitgenInference.new fe g k₀) base1 trivial rfl).2.1

/-- C6: Ingesting a `RangeConstraint` effect merges the new constraint by
conjunction into the cell's existing combined constraint; if the merged result
collapses to a single value and the cell is not already known, the cell is
marked known and exactly one `Assignment` effect assigning that constant is
appended to `code`. -/
theorem c6_promotion {p : ℕ} (s : WitgenInference p) (cell : Cell)
    (rc : RangeConstraint p) :
    (WitgenInference.ingest_effects s
      [Effect.RangeConstraint cell rc]).derived_range_constraints cell =
      some (WitgenInference.merged_rc s cell rc) ∧
    ∀ v, (WitgenInference.merged_rc s cell rc).try_to_single_value = some v →
      cell ∉ s.known_cells →
      (WitgenInference.ingest_effects s
        [Effect.RangeConstraint cell rc]).known_cells =
        insert cell s.known_cells ∧
      (WitgenInference.ingest_effects s [Effect.RangeConstraint cell rc]).code =
        s.code ++ [Effect.Assignment cell (SymbolicExpression.Concrete v)] := by
  have heq : WitgenInference.ingest_effects s [Effect.RangeConstraint cell rc] =
      WitgenInference.add_range_constraint s cell rc := rfl
  refine ⟨?_, ?_⟩
  · rw [heq, arc_derived]
    simp
  · intro v hv hk
    rw [heq, arc_of_unknown_some hk hv]
    exact ⟨rfl, rfl⟩

/-- C6 witness: a singleton constraint on a fresh cell of the empty engine. -/
theorem c6_witness :
    (WitgenInference.ingest_effects sEmpty
      [Effect.RangeConstraint (wcell "W" 5) ⟨[4]⟩]).known_cells =
      insert (wcell "W" 5) sEmpty.known_cells ∧
    (WitgenInference.ingest_effects sEmpty
      [Effect.RangeConstraint (wcell "W" 5) ⟨[4]⟩]).code =
      sEmpty.code ++ [Effect.Assignment (wcell "W" 5)
        (SymbolicExpression.Concrete 4)] :=
  (c6_promotion sEmpty (wcell "W" 5) ⟨[4]⟩).2 4 (by decide) (by decide)

/-- C9: Ingesting a `RangeConstraint` effect for a cell that is already known
modifies only that cell's entry in `derived_range_constraints`; `known_cells`
and `code` are unchanged, and no `Assignment` is synthesized. -/
theorem c9_known_cell_frame {p : ℕ} (s : WitgenInference p) (cell : Cell)
    (rc : RangeConstraint p) (h : cell ∈ s.known_cells) :
    (WitgenInference.ingest_effects s
      [Effect.RangeConstraint cell rc]).known_cells = s.known_cells ∧
    (WitgenInference.ingest_effects s [Effect.RangeConstraint cell rc]).code =
      s.code ∧
    (∀ c, c ≠ cell →
      (WitgenInference.ingest_effects s
        [Effect.RangeConstraint cell rc]).derived_range_constraints c =
        s.derived_range_constraints c) ∧
    (WitgenInference.ingest_effects s
      [Effect.RangeConstraint cell rc]).derived_range_constraints cell =
      some (WitgenInference.merged_rc s cell rc) := by
  have heq : WitgenInference.ingest_effects s [Effect.RangeConstraint cell rc] =
      WitgenInference.add_range_constraint s cell rc := rfl
  rw [heq, arc_of_known h]
  refine ⟨rfl, rfl, ?_, by simp⟩
  intro c hc
  simp [hc]

/-- C9 witness: a constraint on the already-known cell `X[0]`. -/
theorem c9_witness :
    (WitgenInference.ingest_effects sKnownX
      [Effect.RangeConstraint (wcell "X" 0) ⟨[4, 5]⟩]).known_cells =
      sKnownX.known_cells ∧
    (WitgenInference.ingest_effects sKnownX
      [Effect.RangeConstraint (wcell "X" 0) ⟨[4, 5]⟩]).code = sKnownX.code :=
  ⟨(c9_known_cell_frame sKnownX (wcell "X" 0) ⟨[4, 5]⟩ (by decide)).1,
   (c9_known_cell_frame sKnownX (wcell "X" 0) ⟨[4, 5]⟩ (by decide)).2.1⟩

/-- C10: For every lookup-family identity, the right-hand side's selector is
never evaluated or inspected: the result of `process_lookup` depends only on
the right-hand expressions, the left-hand selector and the left-hand
expressions, for any value of the right selector. -/
theorem c10_right_selector_ignored {p : ℕ} (s : WitgenInference p) (i : Nat)
    (left : SelectedExpressions p) (es : List (Expression p))
    (sel1 sel2 : Expression p) (off : Int) :
    WitgenInference.process_lookup s i left ⟨sel1, es⟩ off =
      WitgenInference.process_lookup s i left ⟨sel2, es⟩ off ∧
    WitgenInference.process_identity s (Identity.Lookup i left ⟨sel1, es⟩) off =
      WitgenInference.process_identity s (Identity.Lookup i left ⟨sel2, es⟩) off :=
  ⟨rfl, rfl⟩

/-- C2: For every identity of the lookup/permutation family and every row
offset, `process_identity` returns complete and emits exactly one `MachineCall`
effect (carrying the identity id and the full left-hand argument list, each
argument tagged `Known` or the single `Unknown` expression) if and only if the
right side is all fixed columns or constants, the left selector is known to be
one, all left expressions evaluate, and exactly one of them is unknown with a
single unknown variable; any other combination yields no effects and not
complete. -/
theorem c2_lookup_iff {p : ℕ} (s : WitgenInference p) (i : Nat)
    (left right : SelectedExpressions p) (off : Int) :
    ((WitgenInference.process_lookup s i left right off).complete = true ↔
      lookup_resolvable s left right off) ∧
    (∀ lhs, WitgenInference.evaluate_all s left.expressions off = some lhs →
      lookup_resolvable s left right off →
      (WitgenInference.process_lookup s i left right off).effects =
        [Effect.MachineCall i (lhs.map WitgenInference.tag_argument)]) ∧
    (¬ lookup_resolvable s left right off →
      WitgenInference.process_lookup s i left right off = ProcessResult.empty) ∧
    (∀ id0 ∈ [Identity.Lookup i left right, Identity.Permutation i left right,
        Identity.PhantomPermutation i left right,
        Identity.PhantomLookup i left right],
      (WitgenInference.process_identity s id0 off).2 =
        (WitgenInference.process_lookup s i left right off).complete ∧
      (WitgenInference.process_identity s id0 off).1 =
        WitgenInference.ingest_effects s
          (WitgenInference.process_lookup s i left right off).effects) := by
  have hdispatch : ∀ id0 ∈ [Identity.Lookup i left right,
      Identity.Permutation i left right, Identity.PhantomPermutation i left right,
      Identity.PhantomLookup i left right],
      (WitgenInference.process_identity s id0 off).2 =
        (WitgenInference.process_lookup s i left right off).complete ∧
      (WitgenInference.process_identity s id0 off).1 =
        WitgenInference.ingest_effects s
          (WitgenInference.process_lookup s i left right off).effects := by
    intro id0 hid
    simp only [List.mem_cons, List.not_mem_nil, or_false] at hid
    rcases hid with rfl | rfl | rfl | rfl <;> exact ⟨rfl, rfl⟩
  rcases process_lookup_cases s i left right off with ⟨hres, heff⟩ | ⟨hnres, hempty⟩
  · refine ⟨⟨fun _ => hres, fun _ => ?_⟩, fun lhs hlhs _ => ?_, fun hn => absurd hres hn,
      hdispatch⟩
    · rcases hres.2.2 with ⟨lhs, hlhs, -, -⟩
      rw [heff lhs hlhs]
    · rw [heff lhs hlhs]
  · refine ⟨⟨fun hc => ?_, fun hres => absurd hres hnres⟩,
      fun lhs hlhs hres => absurd hres hnres, fun _ => hempty, hdispatch⟩
    rw [hempty] at hc
    simp [ProcessResult.empty] at hc

/-- C2 witness: a lookup with a fixed-column/constant right side, selector one,
known `X[0]`, unknown `Y[1]`; the machine call is emitted and complete. -/
theorem c2_witness :
    (WitgenInference.process_lookup sKnownX 7
      ⟨Expression.Number 1, [Expression.Reference (wref "X" 0),
        Expression.Reference (wref "Y" 1)]⟩
      ⟨Expression.Number 1, [Expression.Reference (fref "P" 10),
        Expression.Number 3]⟩ 0).complete = true ∧
    (WitgenInference.process_lookup sKnownX 7
      ⟨Expression.Number 1, [Expression.Reference (wref "X" 0),
        Expression.Reference (wref "Y" 1)]⟩
      ⟨Expression.Number 1, [Expression.Reference (fref "P" 10),
        Expression.Number 3]⟩ 0).effects =
      [Effect.MachineCall 7
        [MachineCallArgument.Known (SymbolicExpression.Symbol (wcell "X" 0)),
         MachineCallArgument.Unknown
           (AffineSymbolicExpression.from_unknown_variable (wcell "Y" 1))]] := by
  have hres : lookup_resolvable sKnownX
      ⟨Expression.Number 1, [Expression.Reference (wref "X" 0),
        Expression.Reference (wref "Y" 1)]⟩
      ⟨Expression.Number 1, [Expression.Reference (fref "P" 10),
        Expression.Number 3]⟩ 0 :=
    ⟨by decide, by decide,
     ⟨[AffineSymbolicExpression.from_known_symbol (wcell "X" 0),
       AffineSymbolicExpression.from_unknown_variable (wcell "Y" 1)],
      by decide, by decide, by decide⟩⟩
  constructor
  · exact (c2_lookup_iff sKnownX 7 _ _ 0).1.mpr hres
  · rw [(c2_lookup_iff sKnownX 7 _ _ 0).2.1
      [AffineSymbolicExpression.from_known_symbol (wcell "X" 0),
       AffineSymbolicExpression.from_unknown_variable (wcell "Y" 1)]
      (by decide) hres]
    rfl

/-- C7 counterexample: for the engine that knows `X[0]` (with no compile-time
constant value for it), both operands of `X ** 2` are fully known, yet
evaluating the power expression fails — refuting "succeeds exactly when both
operands are fully known". -/
theorem c7_counterexample :
    (∃ l, WitgenInference.evaluate sKnownX
        (Expression.Reference (wref "X" 0)) 0 = some l ∧
      l.try_to_known.isSome = true) ∧
    (∃ r, WitgenInference.evaluate sKnownX (Expression.Number 2) 0 = some r ∧
      r.try_to_known.isSome = true) ∧
    WitgenInference.evaluate_binary_operation sKnownX
      (Expression.Reference (wref "X" 0)) AlgebraicBinaryOperator.Pow
      (Expression.Number 2) 0 = none :=
  ⟨⟨AffineSymbolicExpression.from_known_symbol (wcell "X" 0), by decide, by decide⟩,
   ⟨AffineSymbolicExpression.of_number 2, by decide, by decide⟩, by decide⟩

/-- C7 (amended): evaluating a binary power expression succeeds exactly when
both operands evaluate to fully known values that are concrete numbers (a
known-but-symbolic operand also makes it fail); it then yields the field
exponentiation of the left value by the right value's integer; it fails
whenever either operand is not fully known. -/
theorem c7_pow_amended {p : ℕ} (s : WitgenInference p) (l r : Expression p)
    (off : Int) :
    WitgenInference.evaluate_binary_operation s l AlgebraicBinaryOperator.Pow
        r off =
      match ((WitgenInference.evaluate s l off).bind
          AffineSymbolicExpression.try_to_known).bind
          SymbolicExpression.try_to_number,
        ((WitgenInference.evaluate s r off).bind
          AffineSymbolicExpression.try_to_known).bind
          SymbolicExpression.try_to_number with
      | some va, some vb =>
        some (AffineSymbolicExpression.of_number (va ^ vb.val))
      | _, _ => none := by
  unfold WitgenInference.evaluate_binary_operation
  cases hl : WitgenInference.evaluate s l off with
  | none => simp [WitgenInference.evaluate, hl]
  | some left =>
    cases hlk : left.try_to_known with
    | none =>
      cases hr : WitgenInference.evaluate s r off <;>
        simp [WitgenInference.evaluate, hl, hr, hlk]
    | some lk =>
      cases hln : lk.try_to_number with
      | none =>
        cases hr : WitgenInference.evaluate s r off <;>
          simp [WitgenInference.evaluate, hl, hr, hlk, hln]
      | some ln =>
        cases hr : WitgenInference.evaluate s r off with
        | none => simp [WitgenInference.evaluate, hl, hr, hlk, hln]
        | some right =>
          cases hrk : right.try_to_known with
          | none => simp [WitgenInference.evaluate, hl, hr, hlk, hln, hrk]
          | some rk =>
            cases hrn : rk.try_to_number with
            | none => simp [WitgenInference.evaluate, hl, hr, hlk, hln, hrk, hrn]
            | some rn => simp [WitgenInference.evaluate, hl, hr, hlk, hln, hrk, hrn]

/-- C8: Evaluating a public-input reference or a challenge reference always
fails, any evaluation failure anywhere in an expression tree propagates up, and
processing the enclosing polynomial identity then returns no effects and not
complete, without raising an error. -/
theorem c8_failure_propagation {p : ℕ} (s : WitgenInference p) (off : Int) :
    (∀ name, WitgenInference.evaluate s (Expression.PublicReference name) off
      = none) ∧
    (∀ i, WitgenInference.evaluate s (Expression.Challenge i) off = none) ∧
    (∀ t e, Subterm t e → WitgenInference.evaluate s t off = none →
      WitgenInference.evaluate s e off = none) ∧
    (∀ e i, WitgenInference.evaluate s e off = none →
      WitgenInference.process_identity s (Identity.Polynomial i e) off =
        (s, false)) := by
  refine ⟨fun _ => rfl, fun _ => rfl, ?_, ?_⟩
  · intro t e hsub hnone
    induction hsub with
    | refl => exact hnone
    | bin_left op h ih => simp [WitgenInference.evaluate, ih]
    | bin_right op h ih =>
      rename_i l r
      cases hl : WitgenInference.evaluate s l off <;>
        simp [WitgenInference.evaluate, ih, hl]
    | unary op h ih =>
      cases op
      simp [WitgenInference.evaluate, ih]
  · intro e i hnone
    unfold WitgenInference.process_identity
    simp only [WitgenInference.process_result]
    unfold WitgenInference.process_polynomial_identity
    rw [hnone]
    rfl

/-- C8 witness: `1 + public` fails to evaluate and the enclosing polynomial
identity is a silent no-op. -/
theorem c8_witness :
    WitgenInference.evaluate sEmpty
      (Expression.BinaryOperation (Expression.Number 1)
        AlgebraicBinaryOperator.Add (Expression.PublicReference "pub")) 0
      = none ∧
    WitgenInference.process_identity sEmpty
      (Identity.Polynomial 3
        (Expression.BinaryOperation (Expression.Number 1)
          AlgebraicBinaryOperator.Add (Expression.PublicReference "pub"))) 0
      = (sEmpty, false) :=
  ⟨(c8_failure_propagation sEmpty 0).2.2.1 (Expression.PublicReference "pub") _
    (Subterm.bin_right AlgebraicBinaryOperator.Add (Subterm.refl _)) rfl,
   (c8_failure_propagation sEmpty 0).2.2.2 _ 3 rfl⟩
